import Mathlib

/-!
Verification development for the NEST connection-management subsystem
(`src/nestkernel/connection_manager.h`) and the `iaf_neat` neuron model
(`src/models/iaf_neat.h`).

The repository ships only the headers.  Inline member functions
(`get_min_delay`, `get_max_delay`, the source-table entry-point
delegates, `have_connections_changed`, and the `iaf_neat` event-test
handlers) are embedded directly from their source bodies.  Member
functions whose bodies are not part of the repository (`connect`,
`disconnect`, `calibrate`, `sort_connections`, `get_connections`,
`set_synapse_status`, the `SourceTable` internals) are modelled from the
specification, as marked in their doc comments.

C++ `double` values for weight and delay are modelled as `Option ℚ`,
where `none` stands for the NAN sentinel described in the header
comments ("The parameters delay and weight have the default value NAN").
-/

/-- A realized synapse, as stored in the per-(thread, synapse type)
connection buckets (`connections_5g_`).  `delay = none` or
`weight = none` models the C++ NAN sentinel of an unresolved value. -/
structure Connection where
  source : Nat
  target : Nat
  syn_id : Nat
  label : Int
  delay : Option ℚ
  weight : Option ℚ
deriving DecidableEq

/-- Modelled from the spec: a per-thread DelayChecker records every
synaptic delay seen by that thread and reduces to thread-local min/max.
`bounds = none` means no delay has been observed yet. -/
structure DelayChecker where
  bounds : Option (ℚ × ℚ)
deriving DecidableEq

/-- Modelled from the spec: record one observed delay in a DelayChecker. -/
def DelayChecker.check (dc : DelayChecker) (d : ℚ) : DelayChecker :=
  match dc.bounds with
  | none => ⟨some (d, d)⟩
  | some (mn, mx) => ⟨some (min mn d, max mx d)⟩

/-- An entry of the synapse-type catalog: the registered default delay
and weight used to resolve the NAN sentinel of an omitted argument. -/
structure SynapseModel where
  delay_default : ℚ
  weight_default : ℚ
deriving DecidableEq

/-- A Target routing descriptor: (rank, thread, synapse type, local
connection index). -/
structure Target where
  rank : Nat
  tid : Nat
  syn_id : Nat
  lcid : Nat
deriving DecidableEq

/-- Apply `f` to the element at position `i`; out-of-range indices leave
the list unchanged.  Used to embed writes into the per-thread /
per-synapse-type nested vectors of the C++ code. -/
def listModify (f : α → α) (i : Nat) (l : List α) : List α :=
  match l, i with
  | [], _ => []
  | x :: xs, 0 => f x :: xs
  | x :: xs, n + 1 => x :: listModify f n xs

/-- The ConnectionManager state: the fields of
`nest::ConnectionManager` that the verified claims are about.
`connections_5g_` is the threads|synapses|connections structure,
`vv_num_connections_` the threads|synapsetypes counters. -/
structure ConnectionManager where
  connections_5g_ : List (List (List Connection))
  delay_checkers_ : List DelayChecker
  vv_num_connections_ : List (List Nat)
  synapse_models_ : List SynapseModel
  target_table_ : List (List Target)
  min_delay_ : ℚ
  max_delay_ : ℚ
  have_connections_changed_ : Bool
deriving DecidableEq

/-- The connection bucket hosted by thread `tid` for synapse type `syn`. -/
def getBucket (s : ConnectionManager) (tid syn : Nat) : List Connection :=
  (s.connections_5g_.getD tid []).getD syn []

/-- Source (`connection_manager.h`, inline): `get_min_delay` returns the
precomputed `min_delay_` field. -/
def ConnectionManager.get_min_delay (s : ConnectionManager) : ℚ :=
  s.min_delay_

/-- Source (`connection_manager.h`, inline): `get_max_delay` returns the
precomputed `max_delay_` field. -/
def ConnectionManager.get_max_delay (s : ConnectionManager) : ℚ :=
  s.max_delay_

/-- Source (`connection_manager.h`, inline): `have_connections_changed`
returns the dirty flag. -/
def ConnectionManager.have_connections_changed (s : ConnectionManager) : Bool :=
  s.have_connections_changed_

/-- Resolve the NAN sentinel: an omitted (`none`) value is replaced by
the synapse-type default, a present value is kept. -/
def resolveSentinel (dflt : ℚ) : Option ℚ → ℚ
  | none => dflt
  | some v => v

/-- Modelled from the spec (body of `ConnectionManager::connect(index s,
Node* target, thread target_thread, index syn, double_t d, double_t w)`
is not in the repository): appends a realized Connection to the
(target_thread, syn) bucket, resolving NAN-sentinel delay/weight from
the synapse-type defaults, records the realized delay in the thread's
DelayChecker, increments the per-thread per-type counter and sets the
topology-changed flag. -/
def ConnectionManager.connect (s : ConnectionManager) (sgid tgid tid syn : Nat)
    (lbl : Int) (d w : Option ℚ) : ConnectionManager :=
  let m := s.synapse_models_.getD syn ⟨1, 1⟩
  let dr := resolveSentinel m.delay_default d
  let wr := resolveSentinel m.weight_default w
  let c : Connection := ⟨sgid, tgid, syn, lbl, some dr, some wr⟩
  { s with
    connections_5g_ :=
      listModify (listModify (fun cs => cs ++ [c]) syn) tid s.connections_5g_
    delay_checkers_ := listModify (fun dc => dc.check dr) tid s.delay_checkers_
    vv_num_connections_ :=
      listModify (listModify (fun n => n + 1) syn) tid s.vv_num_connections_
    have_connections_changed_ := true }

/-- Does connection `c` link source gid `sgid` to target gid `tgid`? -/
def connMatches (sgid tgid : Nat) (c : Connection) : Bool :=
  c.source == sgid && c.target == tgid

/-- Modelled from the spec (body of `ConnectionManager::disconnect(Node&
target, index sgid, thread target_thread, index syn_id)` is not in the
repository): removes the first Connection of the (target_thread, syn_id)
bucket linking `sgid` to the target; a silent no-op when no such
Connection exists. -/
def ConnectionManager.disconnect (s : ConnectionManager)
    (tgid sgid tid syn : Nat) : ConnectionManager :=
  let found := (getBucket s tid syn).any (connMatches sgid tgid)
  { s with
    connections_5g_ :=
      listModify (listModify (fun cs => cs.eraseP (connMatches sgid tgid)) syn)
        tid s.connections_5g_
    vv_num_connections_ :=
      if found then
        listModify (listModify (fun n => n - 1) syn) tid s.vv_num_connections_
      else s.vv_num_connections_
    have_connections_changed_ :=
      if found then true else s.have_connections_changed_ }

/-- Merge two optional (min, max) delay bounds. -/
def mergeBounds : Option (ℚ × ℚ) → Option (ℚ × ℚ) → Option (ℚ × ℚ)
  | none, b => b
  | some a, none => some a
  | some (mn1, mx1), some (mn2, mx2) => some (min mn1 mn2, max mx1 mx2)

/-- Reduce all per-thread DelayCheckers to the global delay bounds. -/
def globalBounds (cks : List DelayChecker) : Option (ℚ × ℚ) :=
  cks.foldr (fun dc acc => mergeBounds dc.bounds acc) none

/-- Modelled from the spec (body of `ConnectionManager::calibrate(const
TimeConverter&)` is not in the repository): recomputes the global
`min_delay_` / `max_delay_` from all per-thread DelayCheckers, but only
when the `have_connections_changed_` dirty flag is set. -/
def ConnectionManager.calibrate (s : ConnectionManager) : ConnectionManager :=
  if s.have_connections_changed_ then
    match globalBounds s.delay_checkers_ with
    | some (mn, mx) => { s with min_delay_ := mn, max_delay_ := mx }
    | none => s
  else s

/-- Delivery order inside one bucket: ascending source gid. -/
def bucketLE (a b : Connection) : Prop := a.source ≤ b.source

instance : DecidableRel bucketLE := fun a b => Nat.decLe a.source b.source

instance : IsTotal Connection bucketLE := ⟨fun a b => Nat.le_total a.source b.source⟩

instance : IsTrans Connection bucketLE := ⟨fun _ _ _ => Nat.le_trans⟩

/-- Sort one connection bucket into delivery order. -/
def sortBucket (cs : List Connection) : List Connection :=
  cs.insertionSort bucketLE

/-- Modelled from the spec (body of `ConnectionManager::sort_connections`
is not in the repository): reorders each thread's connection buckets for
delivery-time locality, touching nothing but the buckets themselves. -/
def ConnectionManager.sort_connections (s : ConnectionManager) : ConnectionManager :=
  { s with
    connections_5g_ := s.connections_5g_.map (fun syns => syns.map sortBucket) }

/-- Modelled from the spec (body of `ConnectionManager::set_synapse_status`
is not in the repository): rewrites the parameters (weight, label) of
the single Connection at port `p` of the (tid, syn) bucket, leaving the
delay-extrema state untouched. -/
def ConnectionManager.set_synapse_status (s : ConnectionManager)
    (tid syn p : Nat) (w : ℚ) (lbl : Int) : ConnectionManager :=
  { s with
    connections_5g_ :=
      listModify
        (listModify (listModify (fun c => { c with weight := some w, label := lbl }) p)
          syn)
        tid s.connections_5g_ }

/-- Source (`connection_manager.h`): `get_synapse_status` is declared
`const`; it reads the Connection at port `p` of the (tid, syn) bucket
and leaves the manager state unchanged. -/
def ConnectionManager.get_synapse_status (s : ConnectionManager)
    (tid syn p : Nat) : Option Connection × ConnectionManager :=
  ((getBucket s tid syn).getD p ⟨0, 0, 0, 0, none, none⟩ |>
    fun c => if p < (getBucket s tid syn).length then some c else none, s)

/-- Total number of connections, summed from `vv_num_connections_`. -/
def ConnectionManager.get_num_connections (s : ConnectionManager) : Nat :=
  (s.vv_num_connections_.map List.sum).sum

/-- Number of connections of synapse type `syn`. -/
def ConnectionManager.get_num_connections_syn (s : ConnectionManager) (syn : Nat) : Nat :=
  (s.vv_num_connections_.map (fun v => v.getD syn 0)).sum

/-- A `get_connections` query dictionary: optional source gid list,
optional target gid list, optional synapse model, optional label;
omitted source / target filters match all nodes. -/
structure ConnQuery where
  source : Option (List Nat)
  target : Option (List Nat)
  syn_model : Option Nat
  syn_label : Option Int
deriving DecidableEq

/-- The source/target/label part of a query filter (the synapse-model
filter is applied at the bucket level by `get_connections`). -/
def matchNoSyn (q : ConnQuery) (c : Connection) : Bool :=
  (match q.source with | none => true | some ss => ss.contains c.source) &&
  (match q.target with | none => true | some ts => ts.contains c.target) &&
  (match q.syn_label with | none => true | some l => c.label == l)

/-- The spec's words for a query match: a connection matches every
filter present, an omitted source or target filter matches all nodes. -/
def connInQuery (q : ConnQuery) (c : Connection) : Bool :=
  (match q.source with | none => true | some ss => ss.contains c.source) &&
  (match q.target with | none => true | some ts => ts.contains c.target) &&
  (match q.syn_model with | none => true | some y => c.syn_id == y) &&
  (match q.syn_label with | none => true | some l => c.label == l)

/-- Collect from the bucket of synapse type `y`: unless the query names
a different synapse model, filter the bucket by the remaining filters. -/
def bucketQuery (q : ConnQuery) (y : Nat) (cs : List Connection) : List Connection :=
  match q.syn_model with
  | some m => if m == y then cs.filter (matchNoSyn q) else []
  | none => cs.filter (matchNoSyn q)

/-- Walk one thread's buckets, tracking the synapse-type index. -/
def collectBuckets (q : ConnQuery) : Nat → List (List Connection) → List Connection
  | _, [] => []
  | y, cs :: rest => bucketQuery q y cs ++ collectBuckets q (y + 1) rest

/-- Modelled from the spec (body of `ConnectionManager::get_connections`
is not in the repository): iterates all threads and synapse-type
buckets, collecting the connections that match the query. -/
def ConnectionManager.get_connections (s : ConnectionManager) (q : ConnQuery) :
    List Connection :=
  (s.connections_5g_.map (collectBuckets q 0)).flatten

/-- Source (`connection_manager.h`): `get_connections` is declared
`const`; running it returns its result and the manager state unchanged. -/
def ConnectionManager.get_connections_run (s : ConnectionManager) (q : ConnQuery) :
    List Connection × ConnectionManager :=
  (s.get_connections q, s)

/-- All stored connections, in table order. -/
def allConns (s : ConnectionManager) : List Connection :=
  (s.connections_5g_.map List.flatten).flatten

/-- Well-formedness of one thread's bucket vector starting at
synapse-type index `y`: every stored connection carries the synapse
type of its bucket. -/
def bucketsWF : Nat → List (List Connection) → Bool
  | _, [] => true
  | y, cs :: rest => cs.all (fun c => c.syn_id == y) && bucketsWF (y + 1) rest

/-- Every bucket of the manager holds only connections of its own
synapse type. -/
def wfSyn (s : ConnectionManager) : Bool :=
  s.connections_5g_.all (bucketsWF 0)

/-- The read performed by `send_5g(tid, syn_index, lcid, e)`: the
Connection at bucket position (tid, syn_index, lcid), whose weight and
delay are applied to the event. -/
def ConnectionManager.send_5g_read (s : ConnectionManager) (tid syn lcid : Nat) :
    Option Connection :=
  (getBucket s tid syn)[lcid]?

/-- Append a resolved Target descriptor for thread `tid` (the
`add_target` step of the resolution protocol). -/
def ConnectionManager.add_target (s : ConnectionManager) (tid : Nat) (tg : Target) :
    ConnectionManager :=
  { s with target_table_ := listModify (fun ts => ts ++ [tg]) tid s.target_table_ }

/-- The operations of the ConnectionManager that touch its state, used
to describe the reachable states. -/
inductive KOp where
  | connect (sgid tgid tid syn : Nat) (lbl : Int) (d w : Option ℚ)
  | disconnect (tgid sgid tid syn : Nat)
  | calibrate
  | sort_connections
  | set_synapse_status (tid syn p : Nat) (w : ℚ) (lbl : Int)
  | add_target (tid : Nat) (tg : Target)
deriving DecidableEq

/-- Interpret one operation on the manager state. -/
def applyOp : KOp → ConnectionManager → ConnectionManager
  | .connect sgid tgid tid syn lbl d w, s => s.connect sgid tgid tid syn lbl d w
  | .disconnect tgid sgid tid syn, s => s.disconnect tgid sgid tid syn
  | .calibrate, s => s.calibrate
  | .sort_connections, s => s.sort_connections
  | .set_synapse_status tid syn p w lbl, s => s.set_synapse_status tid syn p w lbl
  | .add_target tid tg, s => s.add_target tid tg

/-- Does the operation change the network topology?  Only connection
creation and removal do. -/
def KOp.topoChanging : KOp → Bool
  | .connect .. => true
  | .disconnect .. => true
  | _ => false

/-- Run a list of operations, first to last. -/
def run (ops : List KOp) (s : ConnectionManager) : ConnectionManager :=
  ops.foldl (fun t op => applyOp op t) s

/-- The freshly constructed manager: `T` threads, `Y` registered synapse
types with defaults `models`, no connections, delay extrema at their
startup values, dirty flag clear. -/
def initCM (T Y : Nat) (models : List SynapseModel) : ConnectionManager :=
  { connections_5g_ := List.replicate T (List.replicate Y [])
    delay_checkers_ := List.replicate T ⟨none⟩
    vv_num_connections_ := List.replicate T (List.replicate Y 0)
    synapse_models_ := models
    target_table_ := List.replicate T []
    min_delay_ := 1
    max_delay_ := 1
    have_connections_changed_ := false }

/-- A pending cross-process resolution record of the SourceTable:
source gid and synapse type. -/
structure SourceTableEntry where
  sgid : Nat
  syn_id : Nat
deriving DecidableEq

/-- Modelled from the spec (the `SourceTable` implementation behind
`save_source_table_entry_point` / `restore_source_table_entry_point` is
not in the repository): one thread's slice of the SourceTable — its
strictly ordered pending entries, the current resolution cursor and the
saved entry point. -/
structure SourceThread where
  entries : List SourceTableEntry
  current : Nat
  saved : Nat
deriving DecidableEq

/-- The per-thread SourceTable. -/
def SourceTable := List SourceThread

/-- The default slice used for an out-of-range thread index. -/
def emptySourceThread : SourceThread := ⟨[], 0, 0⟩

/-- `save_entry_point(tid)`: remember the current cursor of thread `tid`. -/
def st_save (tid : Nat) (tbl : SourceTable) : SourceTable :=
  listModify (fun th => { th with saved := th.current }) tid tbl

/-- `restore_entry_point(tid)`: move the cursor of thread `tid` back to
the saved entry point. -/
def st_restore (tid : Nat) (tbl : SourceTable) : SourceTable :=
  listModify (fun th => { th with current := th.saved }) tid tbl

/-- `reset_entry_point(tid)`: move the cursor of thread `tid` to the
first entry. -/
def st_reset (tid : Nat) (tbl : SourceTable) : SourceTable :=
  listModify (fun th => { th with current := 0 }) tid tbl

/-- One `get_next_target_data` read on a single thread slice: return
the entry under the cursor and advance, or report exhaustion. -/
def SourceThread.getNext (th : SourceThread) :
    Option SourceTableEntry × SourceThread :=
  match th.entries[th.current]? with
  | some e => (some e, { th with current := th.current + 1 })
  | none => (none, th)

/-- `get_next_target_data(tid, ...)` at the table level. -/
def st_getNext (tid : Nat) (tbl : SourceTable) :
    Option SourceTableEntry × SourceTable :=
  let th := tbl.getD tid emptySourceThread
  let r := th.getNext
  (r.1, listModify (fun _ => r.2) tid tbl)

/-- Perform a sequence of `get_next_target_data` reads, one per listed
thread id, discarding the returned entries. -/
def st_readMany (rs : List Nat) (tbl : SourceTable) : SourceTable :=
  rs.foldl (fun t r => (st_getNext r t).2) tbl

/-- The next `k` entries produced for thread `tid` by successive
`get_next_target_data` reads, including the exhaustion signals. -/
def st_stream (tid : Nat) (tbl : SourceTable) : Nat → List (Option SourceTableEntry)
  | 0 => []
  | k + 1 =>
    let r := st_getNext tid tbl
    r.1 :: st_stream tid r.2 k

/-- The same stream, computed from a single thread slice. -/
def SourceThread.stream (th : SourceThread) : Nat → List (Option SourceTableEntry)
  | 0 => []
  | k + 1 =>
    let r := th.getNext
    r.1 :: r.2.stream k

/-- The receptor errors `iaf_neat` raises while testing a connection. -/
inductive RcptError where
  | incompatibleReceptorType (r : Int)
  | unknownReceptorType (r : Int)
deriving DecidableEq

/-- Source (`iaf_neat.h`): `handles_test_event(SpikeEvent&, rport)`
raises `IncompatibleReceptorType` when the receptor index is negative
or not smaller than `syn_receptors_.size()`, and otherwise returns the
receptor index itself; the node state is never touched, so the
embedding is a pure function of the receptor count. -/
def iafNeatHandlesSpike (syn_receptors_size : Nat) (receptor_type : Int) :
    Except RcptError Int :=
  if receptor_type < 0 ∨ (syn_receptors_size : Int) ≤ receptor_type then
    .error (.incompatibleReceptorType receptor_type)
  else
    .ok receptor_type

/-- Source (`iaf_neat.h`): `handles_test_event(DataLoggingRequest&,
rport)` raises `UnknownReceptorType` for every receptor index other
than 0; for index 0 it connects the logging device and returns the
logger's port, modelled as the abstract `logger_port` of the external
`UniversalDataLogger` collaborator. -/
def iafNeatHandlesLoggingRequest (logger_port : Int) (receptor_type : Int) :
    Except RcptError Int :=
  if receptor_type ≠ 0 then
    .error (.unknownReceptorType receptor_type)
  else
    .ok logger_port

/-- A delay lies within the recorded bounds of a DelayChecker. -/
def coveredBy (dc : DelayChecker) (d : ℚ) : Prop :=
  ∃ mn mx, dc.bounds = some (mn, mx) ∧ mn ≤ d ∧ d ≤ mx

/-- Every stored Connection is fully resolved (no NAN sentinel) and its
delay is recorded by its thread's DelayChecker. -/
def WFdelays (s : ConnectionManager) : Prop :=
  ∀ t y c, c ∈ getBucket s t y →
    ∃ dq wq, c.delay = some dq ∧ c.weight = some wq ∧
      coveredBy (s.delay_checkers_.getD t ⟨none⟩) dq

/-- The global delay extrema bound every per-thread DelayChecker. -/
def extremaCover (s : ConnectionManager) : Prop :=
  ∀ t mn mx, (s.delay_checkers_.getD t ⟨none⟩).bounds = some (mn, mx) →
    s.min_delay_ ≤ mn ∧ mx ≤ s.max_delay_

/-- The invariant every manager operation maintains: the per-thread
structures line up, every stored Connection is resolved and recorded,
and whenever the dirty flag is clear the published extrema still bound
all DelayCheckers. -/
def KInv (s : ConnectionManager) : Prop :=
  s.delay_checkers_.length = s.connections_5g_.length ∧
  WFdelays s ∧
  (s.have_connections_changed_ = false → extremaCover s)

/-- The invariant holding between a `calibrate` call and the next
topology change: `KInv` plus unconditionally valid extrema. -/
def KInv2 (s : ConnectionManager) : Prop :=
  KInv s ∧ extremaCover s

theorem listModify_nil (f : α → α) (i : Nat) : listModify f i [] = [] := by
  cases i <;> rfl

theorem listModify_cons_zero (f : α → α) (x : α) (xs : List α) :
    listModify f 0 (x :: xs) = f x :: xs := rfl

theorem listModify_cons_succ (f : α → α) (n : Nat) (x : α) (xs : List α) :
    listModify f (n + 1) (x :: xs) = x :: listModify f n xs := rfl

theorem listModify_length (f : α → α) (i : Nat) (l : List α) :
    (listModify f i l).length = l.length := by
  induction l generalizing i with
  | nil => rw [listModify_nil]
  | cons x xs ih =>
    cases i with
    | zero => rfl
    | succ n => simpa [listModify_cons_succ] using ih n

theorem listModify_getD (f : α → α) (i : Nat) (l : List α) (j : Nat) (d : α) :
    (listModify f i l).getD j d =
      if j = i ∧ j < l.length then f (l.getD j d) else l.getD j d := by
  induction l generalizing i j with
  | nil => simp [listModify]
  | cons x xs ih =>
    cases i with
    | zero =>
      cases j with
      | zero => simp [listModify]
      | succ m => simp [listModify]
    | succ n =>
      cases j with
      | zero => simp [listModify]
      | succ m =>
        simp only [listModify, List.getD_cons_succ, ih, List.length_cons]
        by_cases hc : m = n ∧ m < xs.length
        · rw [if_pos hc, if_pos (by omega)]
        · rw [if_neg hc, if_neg (by omega)]

theorem listModify_eq_self (f : α → α) (i : Nat) (l : List α) (d : α)
    (h : f (l.getD i d) = l.getD i d) : listModify f i l = l := by
  induction l generalizing i with
  | nil => rw [listModify_nil]
  | cons x xs ih =>
    cases i with
    | zero => simpa [listModify] using h
    | succ n => simpa [listModify] using ih n (by simpa using h)

theorem mem_listModify {f : α → α} {i : Nat} {l : List α} {x : α}
    (h : x ∈ listModify f i l) : x ∈ l ∨ ∃ y, y ∈ l ∧ x = f y := by
  induction l generalizing i with
  | nil => rw [listModify_nil] at h; cases h
  | cons a as ih =>
    cases i with
    | zero =>
      rcases List.mem_cons.mp h with h1 | h1
      · exact Or.inr ⟨a, List.mem_cons_self a as, h1⟩
      · exact Or.inl (List.mem_cons_of_mem a h1)
    | succ n =>
      rcases List.mem_cons.mp h with h1 | h1
      · exact Or.inl (h1 ▸ List.mem_cons_self a as)
      · rcases ih h1 with h2 | ⟨y, hy, hxy⟩
        · exact Or.inl (List.mem_cons_of_mem a h2)
        · exact Or.inr ⟨y, List.mem_cons_of_mem a hy, hxy⟩

theorem getD_map (f : α → β) (l : List α) (i : Nat) (d : α) :
    (l.map f).getD i (f d) = f (l.getD i d) := by
  induction l generalizing i with
  | nil => rfl
  | cons x xs ih => cases i <;> simp [ih]

theorem getD_replicate_elem (n : Nat) (a d : α) (i : Nat) :
    (List.replicate n a).getD i d = if i < n then a else d := by
  induction n generalizing i with
  | zero => simp
  | succ m ih =>
    cases i with
    | zero => rw [List.replicate_succ]; simp
    | succ j =>
      rw [List.replicate_succ, List.getD_cons_succ, ih]
      simp [Nat.succ_lt_succ_iff]

theorem getBucket_initCM (T Y : Nat) (models : List SynapseModel) (t y : Nat) :
    getBucket (initCM T Y models) t y = [] := by
  unfold getBucket initCM
  rcases Nat.lt_or_ge t T with h | h
  · rw [getD_replicate_elem, if_pos h, getD_replicate_elem]
    split <;> rfl
  · rw [getD_replicate_elem, if_neg (Nat.not_lt.mpr h)]
    simp

theorem sortBucket_idem (cs : List Connection) :
    sortBucket (sortBucket cs) = sortBucket cs :=
  List.Sorted.insertionSort_eq (List.sorted_insertionSort bucketLE cs)

/-- Claim C9: for the iaf_neat node, `handles_test_event` on a SpikeEvent
with receptor index r raises IncompatibleReceptorType exactly when r < 0
or r is at least the number of registered synapse receptors, and
otherwise returns r itself as the routing handle. -/
theorem claim_C9 (n : Nat) (r : Int) :
    ((∃ e, iafNeatHandlesSpike n r = .error e) ↔ (r < 0 ∨ (n : Int) ≤ r)) ∧
    (∀ e, iafNeatHandlesSpike n r = .error e → e = .incompatibleReceptorType r) ∧
    (0 ≤ r → r < (n : Int) → iafNeatHandlesSpike n r = .ok r) := by
  unfold iafNeatHandlesSpike
  by_cases h : r < 0 ∨ (n : Int) ≤ r
  · rw [if_pos h]
    refine ⟨⟨fun _ => h, fun _ => ⟨_, rfl⟩⟩, ?_, ?_⟩
    · intro e he
      exact (Except.error.inj he).symm
    · intro h1 h2
      exact absurd h (by omega)
  · rw [if_neg h]
    refine ⟨⟨?_, fun hc => absurd hc h⟩, ?_, fun _ _ => rfl⟩
    · rintro ⟨e, he⟩
      exact absurd he (by simp)
    · intro e he
      exact absurd he (by simp)

/-- Claim C9 witness: receptor index 1 with two registered receptors is
accepted and returned as the routing handle. -/
theorem claim_C9_witness :
    (0 ≤ (1 : Int)) ∧ ((1 : Int) < ((2 : Nat) : Int)) ∧
      iafNeatHandlesSpike 2 1 = .ok 1 :=
  ⟨by decide, by decide, (claim_C9 2 1).2.2 (by decide) (by decide)⟩

/-- Claim C10: for the iaf_neat node, `handles_test_event` on a
DataLoggingRequest raises UnknownReceptorType for every receptor index
other than 0; index 0 is accepted and the logging device's port is
returned. -/
theorem claim_C10 (p r : Int) :
    (r ≠ 0 → iafNeatHandlesLoggingRequest p r = .error (.unknownReceptorType r)) ∧
    (r = 0 → iafNeatHandlesLoggingRequest p r = .ok p) := by
  unfold iafNeatHandlesLoggingRequest
  constructor
  · intro h; simp [h]
  · intro h; simp [h]

/-- Claim C10 witness: receptor index 1 is rejected with
UnknownReceptorType, receptor index 0 returns the logger's port. -/
theorem claim_C10_witness :
    ((1 : Int) ≠ 0 ∧
      iafNeatHandlesLoggingRequest 7 1 = .error (.unknownReceptorType 1)) ∧
    ((0 : Int) = 0 ∧ iafNeatHandlesLoggingRequest 7 0 = .ok 7) :=
  ⟨⟨by decide, (claim_C10 7 1).1 (by decide)⟩,
   ⟨rfl, (claim_C10 7 0).2 rfl⟩⟩

/-- Claim C6: `calibrate` recomputes the global delay extrema from the
per-thread DelayCheckers exactly when the `have_connections_changed`
dirty flag is set; with the flag clear, `min_delay_` and `max_delay_`
are left unchanged. -/
theorem claim_C6 (s : ConnectionManager) :
    (s.have_connections_changed = false →
      s.calibrate.min_delay_ = s.min_delay_ ∧ s.calibrate.max_delay_ = s.max_delay_) ∧
    (s.have_connections_changed = true →
      ∀ mn mx, globalBounds s.delay_checkers_ = some (mn, mx) →
        s.calibrate.min_delay_ = mn ∧ s.calibrate.max_delay_ = mx) := by
  unfold ConnectionManager.calibrate ConnectionManager.have_connections_changed
  constructor
  · intro h; simp [h]
  · intro h mn mx hg; simp [h, hg]

/-- Claim C6 witness: on the freshly constructed manager the dirty flag
is clear and `calibrate` leaves both extrema unchanged. -/
theorem claim_C6_witness :
    (initCM 1 1 [⟨2, 3⟩]).have_connections_changed = false ∧
      (initCM 1 1 [⟨2, 3⟩]).calibrate.min_delay_ = (initCM 1 1 [⟨2, 3⟩]).min_delay_ ∧
      (initCM 1 1 [⟨2, 3⟩]).calibrate.max_delay_ = (initCM 1 1 [⟨2, 3⟩]).max_delay_ :=
  ⟨by decide, (claim_C6 (initCM 1 1 [⟨2, 3⟩])).1 (by decide)⟩

/-- Claim C4: `sort_connections` applied twice yields the very same
state (hence the same per-thread delivery order) as applying it once,
and sorting leaves the published Target descriptor table untouched. -/
theorem claim_C4 (s : ConnectionManager) :
    s.sort_connections.sort_connections = s.sort_connections ∧
    s.sort_connections.target_table_ = s.target_table_ := by
  refine ⟨?_, rfl⟩
  unfold ConnectionManager.sort_connections
  congr 1
  rw [List.map_map]
  apply List.map_congr_left
  intro syns _
  simp only [Function.comp_apply, List.map_map]
  apply List.map_congr_left
  intro cs _
  exact sortBucket_idem cs

/-- Claim C5: `disconnect` on a (source, target) pair with no realized
Connection in the addressed (thread, synapse type) bucket is a silent
no-op — the state, the total connection count and every per-type
connection count are unchanged. -/
theorem claim_C5 (s : ConnectionManager) (tgid sgid tid syn : Nat)
    (h : ∀ c ∈ getBucket s tid syn, connMatches sgid tgid c = false) :
    s.disconnect tgid sgid tid syn = s ∧
    (s.disconnect tgid sgid tid syn).get_num_connections = s.get_num_connections ∧
    ∀ y, (s.disconnect tgid sgid tid syn).get_num_connections_syn y =
      s.get_num_connections_syn y := by
  have hfound : (getBucket s tid syn).any (connMatches sgid tgid) = false := by
    rw [List.any_eq_false]
    intro c hc
    simp [h c hc]
  have herase : (getBucket s tid syn).eraseP (connMatches sgid tgid)
      = getBucket s tid syn := by
    apply List.eraseP_of_forall_not
    intro a ha
    simp [h a ha]
  have hmain : s.disconnect tgid sgid tid syn = s := by
    unfold ConnectionManager.disconnect
    simp only [hfound, Bool.false_eq_true, if_neg, ite_false]
    have hconn : listModify
        (listModify (fun cs => cs.eraseP (connMatches sgid tgid)) syn)
        tid s.connections_5g_ = s.connections_5g_ := by
      apply listModify_eq_self _ _ _ []
      apply listModify_eq_self _ _ _ []
      exact herase
    rw [hconn]
  exact ⟨hmain, by rw [hmain], fun y => by rw [hmain]⟩

/-- Claim C5 witness: disconnecting a pair that was never connected
from a one-connection state leaves the state and the counts as they
were. -/
theorem claim_C5_witness :
    (∀ c ∈ getBucket (run [.connect 1 2 0 0 0 none none] (initCM 1 1 [⟨2, 3⟩])) 0 0,
      connMatches 5 6 c = false) ∧
    (run [.connect 1 2 0 0 0 none none] (initCM 1 1 [⟨2, 3⟩])).disconnect 6 5 0 0 =
      run [.connect 1 2 0 0 0 none none] (initCM 1 1 [⟨2, 3⟩]) :=
  ⟨by decide, ((claim_C5 _ 6 5 0 0 (by decide)).1)⟩

theorem coveredBy_check_self (dc : DelayChecker) (d : ℚ) : coveredBy (dc.check d) d := by
  obtain ⟨b⟩ := dc
  cases b with
  | none => exact ⟨d, d, rfl, le_refl d, le_refl d⟩
  | some p =>
    rcases p with ⟨mn, mx⟩
    exact ⟨min mn d, max mx d, rfl, min_le_right _ _, le_max_right _ _⟩

theorem coveredBy_check_mono (dc : DelayChecker) (d d2 : ℚ) (h : coveredBy dc d) :
    coveredBy (dc.check d2) d := by
  obtain ⟨mn, mx, hb, h1, h2⟩ := h
  obtain ⟨b⟩ := dc
  simp only at hb
  subst hb
  exact ⟨min mn d2, max mx d2, rfl,
    le_trans (min_le_left _ _) h1, le_trans h2 (le_max_left _ _)⟩

theorem globalBounds_cover (cks : List DelayChecker) (t : Nat) (mn mx : ℚ)
    (h : (cks.getD t ⟨none⟩).bounds = some (mn, mx)) :
    ∃ gm gx, globalBounds cks = some (gm, gx) ∧ gm ≤ mn ∧ mx ≤ gx := by
  induction cks generalizing t with
  | nil => simp [List.getD] at h
  | cons dc rest ih =>
    have hfold : globalBounds (dc :: rest) = mergeBounds dc.bounds (globalBounds rest) :=
      rfl
    cases t with
    | zero =>
      rw [List.getD_cons_zero] at h
      rw [hfold, h]
      cases hr : globalBounds rest with
      | none => exact ⟨mn, mx, rfl, le_refl _, le_refl _⟩
      | some p =>
        rcases p with ⟨gm, gx⟩
        exact ⟨min mn gm, max mx gx, rfl, min_le_left _ _, le_max_left _ _⟩
    | succ u =>
      rw [List.getD_cons_succ] at h
      obtain ⟨gm, gx, hg, h1, h2⟩ := ih u h
      rw [hfold, hg]
      cases hb : dc.bounds with
      | none => exact ⟨gm, gx, rfl, h1, h2⟩
      | some p =>
        rcases p with ⟨mn2, mx2⟩
        exact ⟨min mn2 gm, max mx2 gx, rfl,
          le_trans (min_le_right _ _) h1, le_trans h2 (le_max_right _ _)⟩

theorem getBucket_connect (s : ConnectionManager) (sgid tgid tid syn : Nat)
    (lbl : Int) (d w : Option ℚ) (t y : Nat) (c : Connection)
    (hc : c ∈ getBucket (s.connect sgid tgid tid syn lbl d w) t y) :
    c ∈ getBucket s t y ∨
      (t = tid ∧ y = syn ∧ t < s.connections_5g_.length ∧
        c = ⟨sgid, tgid, syn, lbl,
          some (resolveSentinel (s.synapse_models_.getD syn ⟨1, 1⟩).delay_default d),
          some (resolveSentinel (s.synapse_models_.getD syn ⟨1, 1⟩).weight_default w)⟩) := by
  simp only [ConnectionManager.connect] at hc
  unfold getBucket at hc ⊢
  rw [listModify_getD] at hc
  by_cases ht : t = tid ∧ t < s.connections_5g_.length
  · rw [if_pos ht] at hc
    rw [listModify_getD] at hc
    by_cases hy : y = syn ∧ y < (s.connections_5g_.getD t []).length
    · rw [if_pos hy] at hc
      rcases List.mem_append.mp hc with h1 | h1
      · exact Or.inl h1
      · right
        refine ⟨ht.1, hy.1, ht.2, ?_⟩
        simpa using h1
    · rw [if_neg hy] at hc
      exact Or.inl hc
  · rw [if_neg ht] at hc
    exact Or.inl hc

theorem KInv_connect (s : ConnectionManager) (sgid tgid tid syn : Nat)
    (lbl : Int) (d w : Option ℚ) (hInv : KInv s) :
    KInv (s.connect sgid tgid tid syn lbl d w) := by
  obtain ⟨hlen, hwf, _⟩ := hInv
  refine ⟨?_, ?_, ?_⟩
  · simp only [ConnectionManager.connect, listModify_length, hlen]
  · intro t y c hc
    rcases getBucket_connect s sgid tgid tid syn lbl d w t y c hc with
      h1 | ⟨ht, hy, htl, hc2⟩
    · obtain ⟨dq, wq, hd, hw, hcov⟩ := hwf t y c h1
      refine ⟨dq, wq, hd, hw, ?_⟩
      have hck : (s.connect sgid tgid tid syn lbl d w).delay_checkers_
          = listModify (fun dc => dc.check (resolveSentinel
              (s.synapse_models_.getD syn ⟨1, 1⟩).delay_default d)) tid
            s.delay_checkers_ := rfl
      rw [hck, listModify_getD]
      split
      · exact coveredBy_check_mono _ _ _ hcov
      · exact hcov
    · subst ht hy hc2
      refine ⟨_, _, rfl, rfl, ?_⟩
      have hck : (s.connect sgid tgid t y lbl d w).delay_checkers_
          = listModify (fun dc => dc.check (resolveSentinel
              (s.synapse_models_.getD y ⟨1, 1⟩).delay_default d)) t
            s.delay_checkers_ := rfl
      rw [hck, listModify_getD, if_pos ⟨rfl, hlen ▸ htl⟩]
      exact coveredBy_check_self _ _
  · intro hm
    simp only [ConnectionManager.connect] at hm
    cases hm

theorem getBucket_disconnect (s : ConnectionManager) (tgid sgid tid syn t y : Nat)
    (c : Connection) (hc : c ∈ getBucket (s.disconnect tgid sgid tid syn) t y) :
    c ∈ getBucket s t y := by
  simp only [ConnectionManager.disconnect] at hc
  unfold getBucket at hc ⊢
  rw [listModify_getD] at hc
  by_cases ht : t = tid ∧ t < s.connections_5g_.length
  · rw [if_pos ht] at hc
    rw [listModify_getD] at hc
    by_cases hy : y = syn ∧ y < (s.connections_5g_.getD t []).length
    · rw [if_pos hy] at hc
      exact List.mem_of_mem_eraseP hc
    · rw [if_neg hy] at hc
      exact hc
  · rw [if_neg ht] at hc
    exact hc

theorem KInv_disconnect (s : ConnectionManager) (tgid sgid tid syn : Nat)
    (hInv : KInv s) : KInv (s.disconnect tgid sgid tid syn) := by
  obtain ⟨hlen, hwf, hflag⟩ := hInv
  refine ⟨?_, ?_, ?_⟩
  · simp only [ConnectionManager.disconnect, listModify_length, hlen]
  · intro t y c hc
    exact hwf t y c (getBucket_disconnect s tgid sgid tid syn t y c hc)
  · intro hm
    by_cases hf : (getBucket s tid syn).any (connMatches sgid tgid) = true
    · simp only [ConnectionManager.disconnect, hf, if_pos] at hm
      cases hm
    · simp only [ConnectionManager.disconnect, hf, ite_false] at hm
      exact hflag hm

theorem KInv_calibrate (s : ConnectionManager) (hInv : KInv s) : KInv s.calibrate := by
  obtain ⟨hlen, hwf, hflag⟩ := hInv
  unfold ConnectionManager.calibrate
  by_cases hf : s.have_connections_changed_ = true
  · rw [if_pos hf]
    cases hg : globalBounds s.delay_checkers_ with
    | none => exact ⟨hlen, hwf, hflag⟩
    | some p =>
      rcases p with ⟨gm, gx⟩
      refine ⟨hlen, ?_, ?_⟩
      · intro t y c hc
        exact hwf t y c hc
      · intro hm
        rw [show ({ s with min_delay_ := gm, max_delay_ := gx } :
          ConnectionManager).have_connections_changed_ = s.have_connections_changed_
          from rfl] at hm
        rw [hm] at hf
        cases hf
  · rw [if_neg hf]
    exact ⟨hlen, hwf, hflag⟩

theorem extremaCover_calibrate (s : ConnectionManager) (hInv : KInv s) :
    extremaCover s.calibrate := by
  obtain ⟨-, -, hflag⟩ := hInv
  unfold ConnectionManager.calibrate
  by_cases hf : s.have_connections_changed_ = true
  · rw [if_pos hf]
    cases hg : globalBounds s.delay_checkers_ with
    | none =>
      intro t mn mx hb
      exfalso
      obtain ⟨gm, gx, hgb, -, -⟩ := globalBounds_cover s.delay_checkers_ t mn mx hb
      rw [hg] at hgb
      cases hgb
    | some p =>
      rcases p with ⟨gm, gx⟩
      intro t mn mx hb
      obtain ⟨gm2, gx2, hgb, h1, h2⟩ := globalBounds_cover s.delay_checkers_ t mn mx hb
      rw [hg] at hgb
      obtain ⟨he1, he2⟩ := Prod.mk.injEq .. ▸ (Option.some.inj hgb)
      constructor
      · show gm ≤ mn
        rw [show gm2 = gm from (Prod.mk.inj (Option.some.inj hgb)).1.symm ▸ rfl] at h1
        exact h1
      · show mx ≤ gx
        rw [show gx2 = gx from (Prod.mk.inj (Option.some.inj hgb)).2.symm ▸ rfl] at h2
        exact h2
  · rw [if_neg hf]
    exact hflag (Bool.not_eq_true _ ▸ hf)

theorem getD_map_d (f : α → β) (l : List α) (i : Nat) (d : α) (d2 : β)
    (hd : f d = d2) : (l.map f).getD i d2 = f (l.getD i d) := by
  rw [← hd]
  exact getD_map f l i d

theorem getBucket_sort (s : ConnectionManager) (t y : Nat) :
    getBucket s.sort_connections t y = sortBucket (getBucket s t y) := by
  show ((s.connections_5g_.map (fun syns => syns.map sortBucket)).getD t []).getD y []
      = sortBucket ((s.connections_5g_.getD t []).getD y [])
  rw [getD_map_d (fun syns => List.map sortBucket syns) s.connections_5g_ t [] [] rfl]
  rw [getD_map_d sortBucket (s.connections_5g_.getD t []) y [] [] rfl]

theorem KInv_sort (s : ConnectionManager) (hInv : KInv s) : KInv s.sort_connections := by
  obtain ⟨hlen, hwf, hflag⟩ := hInv
  refine ⟨?_, ?_, ?_⟩
  · simpa [ConnectionManager.sort_connections] using hlen
  · intro t y c hc
    rw [getBucket_sort] at hc
    exact hwf t y c ((List.mem_insertionSort bucketLE).mp hc)
  · exact hflag

theorem getBucket_set_status (s : ConnectionManager) (tid syn p : Nat) (w : ℚ)
    (lbl : Int) (t y : Nat) (c : Connection)
    (hc : c ∈ getBucket (s.set_synapse_status tid syn p w lbl) t y) :
    c ∈ getBucket s t y ∨
      ∃ c0, c0 ∈ getBucket s t y ∧ c = { c0 with weight := some w, label := lbl } := by
  simp only [ConnectionManager.set_synapse_status] at hc
  unfold getBucket at hc ⊢
  rw [listModify_getD] at hc
  by_cases ht : t = tid ∧ t < s.connections_5g_.length
  · rw [if_pos ht] at hc
    rw [listModify_getD] at hc
    by_cases hy : y = syn ∧ y < (s.connections_5g_.getD t []).length
    · rw [if_pos hy] at hc
      rcases mem_listModify hc with h1 | ⟨c0, hc0, hcc⟩
      · exact Or.inl h1
      · exact Or.inr ⟨c0, hc0, hcc⟩
    · rw [if_neg hy] at hc
      exact Or.inl hc
  · rw [if_neg ht] at hc
    exact Or.inl hc

theorem KInv_set_status (s : ConnectionManager) (tid syn p : Nat) (w : ℚ)
    (lbl : Int) (hInv : KInv s) : KInv (s.set_synapse_status tid syn p w lbl) := by
  obtain ⟨hlen, hwf, hflag⟩ := hInv
  refine ⟨?_, ?_, ?_⟩
  · simpa [ConnectionManager.set_synapse_status, listModify_length] using hlen
  · intro t y c hc
    rcases getBucket_set_status s tid syn p w lbl t y c hc with h1 | ⟨c0, hc0, hcc⟩
    · exact hwf t y c h1
    · obtain ⟨dq, wq, hd, hw, hcov⟩ := hwf t y c0 hc0
      subst hcc
      exact ⟨dq, w, hd, rfl, hcov⟩
  · exact hflag

theorem KInv_add_target (s : ConnectionManager) (tid : Nat) (tg : Target)
    (hInv : KInv s) : KInv (s.add_target tid tg) := hInv

theorem KInv_applyOp (op : KOp) (s : ConnectionManager) (h : KInv s) :
    KInv (applyOp op s) := by
  cases op with
  | connect sgid tgid tid syn lbl d w => exact KInv_connect s sgid tgid tid syn lbl d w h
  | disconnect tgid sgid tid syn => exact KInv_disconnect s tgid sgid tid syn h
  | calibrate => exact KInv_calibrate s h
  | sort_connections => exact KInv_sort s h
  | set_synapse_status tid syn p w lbl => exact KInv_set_status s tid syn p w lbl h
  | add_target tid tg => exact KInv_add_target s tid tg h

theorem KInv_run (ops : List KOp) (s : ConnectionManager) (h : KInv s) :
    KInv (run ops s) := by
  induction ops generalizing s with
  | nil => exact h
  | cons op rest ih => exact ih _ (KInv_applyOp op s h)

theorem KInv2_applyOp_nonTopo (op : KOp) (hop : op.topoChanging = false)
    (s : ConnectionManager) (h : KInv2 s) : KInv2 (applyOp op s) := by
  obtain ⟨hInv, hcov⟩ := h
  cases op with
  | connect sgid tgid tid syn lbl d w => cases hop
  | disconnect tgid sgid tid syn => cases hop
  | calibrate => exact ⟨KInv_calibrate s hInv, extremaCover_calibrate s hInv⟩
  | sort_connections => exact ⟨KInv_sort s hInv, hcov⟩
  | set_synapse_status tid syn p w lbl =>
    exact ⟨KInv_set_status s tid syn p w lbl hInv, hcov⟩
  | add_target tid tg => exact ⟨KInv_add_target s tid tg hInv, hcov⟩

theorem KInv2_run_nonTopo (ops : List KOp)
    (hops : ops.all (fun op => !op.topoChanging) = true)
    (s : ConnectionManager) (h : KInv2 s) : KInv2 (run ops s) := by
  induction ops generalizing s with
  | nil => exact h
  | cons op rest ih =>
    rw [List.all_cons, Bool.and_eq_true] at hops
    exact ih hops.2 _ (KInv2_applyOp_nonTopo op (by
      rcases hops with ⟨h1, -⟩
      simpa using h1) s h)

theorem KInv_initCM (T Y : Nat) (models : List SynapseModel) :
    KInv (initCM T Y models) := by
  refine ⟨by simp [initCM], ?_, ?_⟩
  · intro t y c hc
    rw [getBucket_initCM] at hc
    cases hc
  · intro _ t mn mx hb
    rw [show (initCM T Y models).delay_checkers_ = List.replicate T ⟨none⟩ from rfl,
      getD_replicate_elem] at hb
    split at hb <;> cases hb

/-- Claim C1: in every state reached by running operations from the
initial manager, then calling `calibrate`, then running any further
operations none of which changes the topology, every stored
Connection's delay `d` satisfies
`get_min_delay() <= d <= get_max_delay()`. -/
theorem claim_C1 (T Y : Nat) (models : List SynapseModel) (pre post : List KOp)
    (hpost : post.all (fun op => !op.topoChanging) = true) :
    ∀ tid syn c,
      c ∈ getBucket (run post (run pre (initCM T Y models)).calibrate) tid syn →
        ∃ dq, c.delay = some dq ∧
          (run post (run pre (initCM T Y models)).calibrate).get_min_delay ≤ dq ∧
          dq ≤ (run post (run pre (initCM T Y models)).calibrate).get_max_delay := by
  have h1 : KInv (run pre (initCM T Y models)) :=
    KInv_run pre _ (KInv_initCM T Y models)
  have h2 : KInv2 (run pre (initCM T Y models)).calibrate :=
    ⟨KInv_calibrate _ h1, extremaCover_calibrate _ h1⟩
  have h3 : KInv2 (run post (run pre (initCM T Y models)).calibrate) :=
    KInv2_run_nonTopo post hpost _ h2
  obtain ⟨⟨-, hwf, -⟩, hcov⟩ := h3
  intro tid syn c hc
  obtain ⟨dq, wq, hd, -, hcb⟩ := hwf tid syn c hc
  obtain ⟨mn, mx, hb, hd1, hd2⟩ := hcb
  obtain ⟨hm1, hm2⟩ := hcov _ _ _ hb
  exact ⟨dq, hd, le_trans hm1 hd1, le_trans hd2 hm2⟩

/-- Claim C1 witness: one connection created with an omitted delay, then
`calibrate`; its realized delay lies between the published extrema. -/
theorem claim_C1_witness :
    ([] : List KOp).all (fun op => !op.topoChanging) = true ∧
    ∀ tid syn c,
      c ∈ getBucket
        (run [] (run [.connect 1 2 0 0 0 none none] (initCM 1 1 [⟨2, 3⟩])).calibrate)
        tid syn →
        ∃ dq, c.delay = some dq ∧
          (run [] (run [.connect 1 2 0 0 0 none none]
            (initCM 1 1 [⟨2, 3⟩])).calibrate).get_min_delay ≤ dq ∧
          dq ≤ (run [] (run [.connect 1 2 0 0 0 none none]
            (initCM 1 1 [⟨2, 3⟩])).calibrate).get_max_delay :=
  ⟨rfl, claim_C1 1 1 [⟨2, 3⟩] [.connect 1 2 0 0 0 none none] [] rfl⟩

/-- Claim C2: an omitted delay or weight — the NAN sentinel, modelled as
`none` — is replaced by the synapse-type default during the single-pair
`connect` call itself, and in every reachable state each Connection
returned by the `send_5g` bucket lookup carries a resolved (non-NAN)
delay and weight. -/
theorem claim_C2 (T Y : Nat) (models : List SynapseModel) (ops : List KOp) :
    (∀ (s : ConnectionManager) (sgid tgid tid syn : Nat) (lbl : Int),
      tid < s.connections_5g_.length →
      syn < (s.connections_5g_.getD tid []).length →
      getBucket (s.connect sgid tgid tid syn lbl none none) tid syn =
        getBucket s tid syn ++
          [⟨sgid, tgid, syn, lbl,
            some (s.synapse_models_.getD syn ⟨1, 1⟩).delay_default,
            some (s.synapse_models_.getD syn ⟨1, 1⟩).weight_default⟩]) ∧
    (∀ tid syn lcid c,
      (run ops (initCM T Y models)).send_5g_read tid syn lcid = some c →
        (∃ dq, c.delay = some dq) ∧ ∃ wq, c.weight = some wq) := by
  constructor
  · intro s sgid tgid tid syn lbl h1 h2
    show ((listModify (listModify (fun cs => cs ++ [_]) syn) tid
      s.connections_5g_).getD tid []).getD syn [] = _
    rw [listModify_getD, if_pos ⟨rfl, h1⟩, listModify_getD, if_pos ⟨rfl, h2⟩]
    rfl
  · intro tid syn lcid c hc
    have hwf := (KInv_run ops _ (KInv_initCM T Y models)).2.1
    have hmem : c ∈ getBucket (run ops (initCM T Y models)) tid syn := by
      unfold ConnectionManager.send_5g_read at hc
      exact List.getElem?_mem hc
    obtain ⟨dq, wq, hd, hw, -⟩ := hwf tid syn c hmem
    exact ⟨⟨dq, hd⟩, ⟨wq, hw⟩⟩

/-- Claim C2 witness: connecting with both delay and weight omitted
stores the synapse-type defaults (2 and 3), and the stored Connection
read back by `send_5g` is fully resolved. -/
theorem claim_C2_witness :
    (run [.connect 1 2 0 0 0 none none] (initCM 1 1 [⟨2, 3⟩])).send_5g_read 0 0 0 =
      some ⟨1, 2, 0, 0, some 2, some 3⟩ ∧
    ((∃ dq, (⟨1, 2, 0, 0, some 2, some 3⟩ : Connection).delay = some dq) ∧
      ∃ wq, (⟨1, 2, 0, 0, some 2, some 3⟩ : Connection).weight = some wq) :=
  ⟨by decide, (claim_C2 1 1 [⟨2, 3⟩] [.connect 1 2 0 0 0 none none]).2 0 0 0
    ⟨1, 2, 0, 0, some 2, some 3⟩ (by decide)⟩

theorem getD_of_le (l : List α) (i : Nat) (d : α) (h : l.length ≤ i) :
    l.getD i d = d := by
  induction l generalizing i with
  | nil => simp [List.getD]
  | cons x xs ih =>
    cases i with
    | zero => exact absurd h (by simp)
    | succ n =>
      rw [List.getD_cons_succ]
      exact ih n (by simpa using h)

theorem getNext_keeps (th : SourceThread) :
    th.getNext.2.entries = th.entries ∧ th.getNext.2.saved = th.saved := by
  unfold SourceThread.getNext
  split <;> exact ⟨rfl, rfl⟩

theorem st_stream_eq_thread (tid : Nat) (tbl : SourceTable) (k : Nat) :
    st_stream tid tbl k = (tbl.getD tid emptySourceThread).stream k := by
  induction k generalizing tbl with
  | zero => rfl
  | succ m ih =>
    have hnext : (st_getNext tid tbl).2.getD tid emptySourceThread
        = (tbl.getD tid emptySourceThread).getNext.2 := by
      show (listModify (fun _ => (tbl.getD tid emptySourceThread).getNext.2) tid
        tbl).getD tid emptySourceThread = _
      rw [listModify_getD]
      split
      · rfl
      · next hc =>
        have hge : tbl.length ≤ tid := Nat.le_of_not_lt (fun hlt => hc ⟨rfl, hlt⟩)
        rw [getD_of_le _ _ _ hge]
        rfl
    show (st_getNext tid tbl).1 :: st_stream tid (st_getNext tid tbl).2 m
        = (tbl.getD tid emptySourceThread).getNext.1 ::
          (tbl.getD tid emptySourceThread).getNext.2.stream m
    rw [ih, hnext]
    rfl

theorem getNext_table_keeps (r tid : Nat) (tbl : SourceTable) :
    ((st_getNext r tbl).2.getD tid emptySourceThread).entries
        = (tbl.getD tid emptySourceThread).entries ∧
    ((st_getNext r tbl).2.getD tid emptySourceThread).saved
        = (tbl.getD tid emptySourceThread).saved := by
  have h2 : (st_getNext r tbl).2
      = listModify (fun _ => (tbl.getD r emptySourceThread).getNext.2) r tbl := rfl
  constructor
  · rw [h2, listModify_getD]
    split
    · next hc =>
      rcases hc with ⟨h1, -⟩
      subst h1
      exact (getNext_keeps _).1
    · rfl
  · rw [h2, listModify_getD]
    split
    · next hc =>
      rcases hc with ⟨h1, -⟩
      subst h1
      exact (getNext_keeps _).2
    · rfl

theorem readMany_keeps (rs : List Nat) (tbl : SourceTable) (tid : Nat) :
    ((st_readMany rs tbl).getD tid emptySourceThread).entries
        = (tbl.getD tid emptySourceThread).entries ∧
    ((st_readMany rs tbl).getD tid emptySourceThread).saved
        = (tbl.getD tid emptySourceThread).saved := by
  induction rs generalizing tbl with
  | nil => exact ⟨rfl, rfl⟩
  | cons r rest ih =>
    have hstep := getNext_table_keeps r tid tbl
    have hrec := ih ((st_getNext r tbl).2)
    exact ⟨hrec.1.trans hstep.1, hrec.2.trans hstep.2⟩

theorem getD_st_save (tid : Nat) (tbl : SourceTable) :
    (st_save tid tbl).getD tid emptySourceThread
      = { tbl.getD tid emptySourceThread with
          saved := (tbl.getD tid emptySourceThread).current } := by
  unfold st_save
  rw [listModify_getD]
  split
  · rfl
  · next hc =>
    have hge : tbl.length ≤ tid := Nat.le_of_not_lt (fun hlt => hc ⟨rfl, hlt⟩)
    rw [getD_of_le _ _ _ hge]
    rfl

theorem getD_st_restore (tid : Nat) (tbl : SourceTable) :
    (st_restore tid tbl).getD tid emptySourceThread
      = { tbl.getD tid emptySourceThread with
          current := (tbl.getD tid emptySourceThread).saved } := by
  unfold st_restore
  rw [listModify_getD]
  split
  · rfl
  · next hc =>
    have hge : tbl.length ≤ tid := Nat.le_of_not_lt (fun hlt => hc ⟨rfl, hlt⟩)
    rw [getD_of_le _ _ _ hge]
    rfl

theorem stream_congr (th1 th2 : SourceThread) (he : th1.entries = th2.entries)
    (hcu : th1.current = th2.current) (k : Nat) : th1.stream k = th2.stream k := by
  obtain ⟨e1, c1, s1⟩ := th1
  obtain ⟨e2, c2, s2⟩ := th2
  simp only at he hcu
  subst he
  subst hcu
  induction k generalizing c1 with
  | zero => rfl
  | succ m ih =>
    show (SourceThread.getNext ⟨e1, c1, s1⟩).1 ::
        (SourceThread.getNext ⟨e1, c1, s1⟩).2.stream m
      = (SourceThread.getNext ⟨e1, c1, s2⟩).1 ::
        (SourceThread.getNext ⟨e1, c1, s2⟩).2.stream m
    unfold SourceThread.getNext
    cases he2 : e1[c1]? with
    | some x => simpa [he2] using ih (c1 + 1)
    | none => simpa [he2] using ih c1

/-- Claim C3: saving a thread's SourceTable entry point, performing any
sequence of `get_next_target_data` reads (on this or any other thread),
then restoring the entry point, makes subsequent reads on that thread
produce exactly the same sequence of entries, in the same order, as
reads started at the moment of the save. -/
theorem claim_C3 (tbl : SourceTable) (tid : Nat) (rs : List Nat) (k : Nat) :
    st_stream tid (st_restore tid (st_readMany rs (st_save tid tbl))) k
      = st_stream tid tbl k := by
  rw [st_stream_eq_thread, st_stream_eq_thread]
  rw [getD_st_restore]
  have hkeep := readMany_keeps rs (st_save tid tbl) tid
  rw [getD_st_save] at hkeep
  apply stream_congr
  · exact hkeep.1
  · exact hkeep.2

theorem filter_flatten (p : α → Bool) (l : List (List α)) :
    l.flatten.filter p = (l.map (List.filter p)).flatten := by
  induction l with
  | nil => rfl
  | cons xs rest ih => simp [List.filter_append, ih]

theorem bucketQuery_eq_filter (q : ConnQuery) (y : Nat) (cs : List Connection)
    (h : ∀ c ∈ cs, c.syn_id = y) :
    bucketQuery q y cs = cs.filter (connInQuery q) := by
  obtain ⟨qs, qt, qm, ql⟩ := q
  cases qm with
  | none =>
    show cs.filter (matchNoSyn ⟨qs, qt, none, ql⟩)
      = cs.filter (connInQuery ⟨qs, qt, none, ql⟩)
    apply List.filter_congr
    intro c _
    simp [matchNoSyn, connInQuery]
  | some m =>
    show (if (m == y) = true then cs.filter (matchNoSyn ⟨qs, qt, some m, ql⟩) else [])
      = cs.filter (connInQuery ⟨qs, qt, some m, ql⟩)
    by_cases hm : m = y
    · rw [if_pos (by simp [hm])]
      apply List.filter_congr
      intro c hc
      have hym : (c.syn_id == m) = true := by simp [h c hc, hm]
      simp [matchNoSyn, connInQuery, hym]
    · rw [if_neg (by simp [hm])]
      symm
      rw [List.filter_eq_nil_iff]
      intro c hc
      have hym : (c.syn_id == m) = false := by
        simp [h c hc]
        exact fun h1 => hm h1.symm
      simp [connInQuery, hym]

theorem collectBuckets_eq_filter (q : ConnQuery) (y : Nat)
    (syns : List (List Connection)) (h : bucketsWF y syns = true) :
    collectBuckets q y syns = syns.flatten.filter (connInQuery q) := by
  induction syns generalizing y with
  | nil => rfl
  | cons cs rest ih =>
    rw [show bucketsWF y (cs :: rest)
      = (cs.all (fun c => c.syn_id == y) && bucketsWF (y + 1) rest) from rfl,
      Bool.and_eq_true] at h
    show bucketQuery q y cs ++ collectBuckets q (y + 1) rest
      = (cs ++ rest.flatten).filter (connInQuery q)
    rw [List.filter_append, ih (y + 1) h.2,
      bucketQuery_eq_filter q y cs
        (fun c hc => by simpa using List.all_eq_true.mp h.1 c hc)]

/-- Claim C7: `get_connections` returns exactly the stored connections
matching every filter present in the query (source set, target set,
synapse model, synapse label), an omitted source or target filter
matching all nodes: it equals the filter of the full connection table
by the query predicate. -/
theorem claim_C7 (s : ConnectionManager) (q : ConnQuery) (hwf : wfSyn s = true) :
    s.get_connections q = (allConns s).filter (connInQuery q) := by
  unfold ConnectionManager.get_connections allConns
  rw [filter_flatten, List.map_map]
  congr 1
  apply List.map_congr_left
  intro syns hs
  exact collectBuckets_eq_filter q 0 syns (List.all_eq_true.mp hwf syns hs)

/-- Claim C7 witness: after creating 3 connections of synapse model 0
and 2 of synapse model 1, the query for model 0 returns the filtered
table — exactly 3 entries. -/
theorem claim_C7_witness :
    wfSyn (run [.connect 1 9 0 0 0 none none, .connect 2 9 0 0 0 none none,
      .connect 3 9 0 0 0 none none, .connect 4 9 0 1 0 none none,
      .connect 5 9 0 1 0 none none] (initCM 1 2 [⟨1, 1⟩, ⟨1, 1⟩])) = true ∧
    (run [.connect 1 9 0 0 0 none none, .connect 2 9 0 0 0 none none,
      .connect 3 9 0 0 0 none none, .connect 4 9 0 1 0 none none,
      .connect 5 9 0 1 0 none none]
        (initCM 1 2 [⟨1, 1⟩, ⟨1, 1⟩])).get_connections ⟨none, none, some 0, none⟩
      = (allConns (run [.connect 1 9 0 0 0 none none, .connect 2 9 0 0 0 none none,
          .connect 3 9 0 0 0 none none, .connect 4 9 0 1 0 none none,
          .connect 5 9 0 1 0 none none] (initCM 1 2 [⟨1, 1⟩, ⟨1, 1⟩]))).filter
          (connInQuery ⟨none, none, some 0, none⟩) ∧
    ((run [.connect 1 9 0 0 0 none none, .connect 2 9 0 0 0 none none,
      .connect 3 9 0 0 0 none none, .connect 4 9 0 1 0 none none,
      .connect 5 9 0 1 0 none none]
        (initCM 1 2 [⟨1, 1⟩, ⟨1, 1⟩])).get_connections
        ⟨none, none, some 0, none⟩).length = 3 :=
  ⟨by decide, claim_C7 _ ⟨none, none, some 0, none⟩ (by decide), by decide⟩

theorem listModify_getElem (f : α → α) (i : Nat) (l : List α) (j : Nat) :
    (listModify f i l)[j]? = if j = i then (l[j]?).map f else l[j]? := by
  induction l generalizing i j with
  | nil => rw [listModify_nil]; split <;> simp
  | cons x xs ih =>
    cases i with
    | zero =>
      cases j with
      | zero => simp [listModify_cons_zero]
      | succ m => simp [listModify_cons_zero]
    | succ n =>
      cases j with
      | zero => simp [listModify_cons_succ]
      | succ m =>
        simp only [listModify_cons_succ, List.getElem?_cons_succ, ih]
        by_cases hc : m = n
        · rw [if_pos hc, if_pos (by omega)]
        · rw [if_neg hc, if_neg (by omega)]

/-- Claim C8: `get_connections` and `get_synapse_status` are const reads
returning the state unchanged, and `set_synapse_status` leaves the
delay-extrema state (`min_delay_`, `max_delay_`, every per-thread
DelayChecker) untouched, modifying nothing but the addressed
connection's own parameters: all other buckets and all other positions
of the addressed bucket are unchanged, and the addressed position holds
the old Connection with only weight and label rewritten. -/
theorem claim_C8 (s : ConnectionManager) (tid syn p : Nat) (w : ℚ) (lbl : Int)
    (q : ConnQuery) (t2 y2 p2 : Nat) :
    (s.set_synapse_status tid syn p w lbl).min_delay_ = s.min_delay_ ∧
    (s.set_synapse_status tid syn p w lbl).max_delay_ = s.max_delay_ ∧
    (s.set_synapse_status tid syn p w lbl).delay_checkers_ = s.delay_checkers_ ∧
    (∀ t y, ¬(t = tid ∧ y = syn) →
      getBucket (s.set_synapse_status tid syn p w lbl) t y = getBucket s t y) ∧
    (∀ i, i ≠ p → (getBucket (s.set_synapse_status tid syn p w lbl) tid syn)[i]?
      = (getBucket s tid syn)[i]?) ∧
    (∀ c, (getBucket (s.set_synapse_status tid syn p w lbl) tid syn)[p]? = some c →
      ∃ c0, (getBucket s tid syn)[p]? = some c0 ∧
        c = { c0 with weight := some w, label := lbl }) ∧
    (s.get_synapse_status t2 y2 p2).2 = s ∧
    (s.get_connections_run q).2 = s := by
  have hconn : (s.set_synapse_status tid syn p w lbl).connections_5g_
      = listModify (listModify (listModify
          (fun c => { c with weight := some w, label := lbl }) p) syn) tid
        s.connections_5g_ := rfl
  refine ⟨rfl, rfl, rfl, ?_, ?_, ?_, rfl, rfl⟩
  · intro t y hne
    unfold getBucket
    rw [hconn, listModify_getD]
    split
    · next hcnd =>
      rcases hcnd with ⟨h1, -⟩
      rw [listModify_getD, if_neg (fun hy => hne ⟨h1, hy.1⟩)]
    · rfl
  · intro i hip
    unfold getBucket
    rw [hconn, listModify_getD]
    split
    · rw [listModify_getD]
      split
      · rw [listModify_getElem, if_neg hip]
      · rfl
    · rfl
  · intro c hc
    unfold getBucket at hc ⊢
    rw [hconn, listModify_getD] at hc
    by_cases ht : tid = tid ∧ tid < s.connections_5g_.length
    · rw [if_pos ht] at hc
      rw [listModify_getD] at hc
      by_cases hy : syn = syn ∧ syn < (s.connections_5g_.getD tid []).length
      · rw [if_pos hy] at hc
        rw [listModify_getElem, if_pos rfl] at hc
        obtain ⟨c0, hc0, hcc⟩ := Option.map_eq_some'.mp hc
        exact ⟨c0, hc0, hcc.symm⟩
      · rw [if_neg hy] at hc
        rw [getD_of_le _ _ _ (Nat.le_of_not_lt (fun hlt => hy ⟨rfl, hlt⟩))] at hc
        simp at hc
    · rw [if_neg ht] at hc
      rw [getD_of_le _ _ _ (Nat.le_of_not_lt (fun hlt => ht ⟨rfl, hlt⟩))] at hc
      simp [List.getD] at hc

/-- Claim C8 witness: rewriting the parameters of the stored connection
leaves the extrema and the untouched bucket (1, 0) as they were. -/
theorem claim_C8_witness :
    ((run [.connect 1 2 0 0 0 none none]
        (initCM 2 1 [⟨2, 3⟩])).set_synapse_status 0 0 0 9 4).min_delay_
      = (run [.connect 1 2 0 0 0 none none] (initCM 2 1 [⟨2, 3⟩])).min_delay_ ∧
    ¬((1 : Nat) = 0 ∧ (0 : Nat) = 0) ∧
    getBucket ((run [.connect 1 2 0 0 0 none none]
        (initCM 2 1 [⟨2, 3⟩])).set_synapse_status 0 0 0 9 4) 1 0
      = getBucket (run [.connect 1 2 0 0 0 none none] (initCM 2 1 [⟨2, 3⟩])) 1 0 :=
  ⟨(claim_C8 (run [.connect 1 2 0 0 0 none none] (initCM 2 1 [⟨2, 3⟩]))
      0 0 0 9 4 ⟨none, none, none, none⟩ 0 0 0).1,
   by decide,
   (claim_C8 (run [.connect 1 2 0 0 0 none none] (initCM 2 1 [⟨2, 3⟩]))
      0 0 0 9 4 ⟨none, none, none, none⟩ 0 0 0).2.2.2.1 1 0 (by decide)⟩
